import Mathlib

/-!
Shallow embedding of the kinto-redis backend (src/kinto_redis/storage.py and
src/kinto_redis/permission.py) for checking the natural-language specification.

The Redis database is modelled as three association lists: string-valued keys
holding decoded records (JSON encode followed by decode is the identity on the
values we model, so records are stored directly), set-valued keys holding
member lists, and integer-valued keys holding the scope timestamp counters.
Redis set semantics are modelled faithfully: a set key whose last member is
removed ceases to exist.  Operations are sequential: the optimistic WATCH
retry loop of bump_and_store_timestamp never hits its WatchError branch in a
sequential execution, so the embedding takes the successful path.
-/

namespace KintoRedis

/-- JSON-like field values of a record. -/
inductive JVal where
  | str (s : String)
  | num (n : Int)
  | bool (b : Bool)
  | null
deriving DecidableEq, Repr

/-- A record is a Python dict from field names to values, modelled as an
association list in insertion order. -/
abbrev Record := List (String × JVal)

/-- Python str() of a value, as used when a record field is interpolated into
a Redis key by str.format. -/
def JVal.fmt : JVal → String
  | .str s => s
  | .num n => toString n
  | .bool true => "True"
  | .bool false => "False"
  | .null => "None"

/-- Dict lookup: first matching key. -/
def rget : Record → String → Option JVal
  | [], _ => none
  | (k, v) :: t, f => if k = f then some v else rget t f

/-- Dict assignment: replace the first occurrence in place, else append. -/
def rset : Record → String → JVal → Record
  | [], f, v => [(f, v)]
  | (k, w) :: t, f, v => if k = f then (f, v) :: t else (k, w) :: rset t f v

/-- Dict del: remove the first occurrence of the key. -/
def rdel : Record → String → Record
  | [], _ => []
  | (k, w) :: t, f => if k = f then t else (k, w) :: rdel t f

/-- Dict setdefault: return the present value, or insert the default. -/
def rsetdefault (r : Record) (f : String) (v : JVal) : JVal × Record :=
  match rget r f with
  | some w => (w, r)
  | none => (v, r ++ [(f, v)])

/-- Association-list lookup for the database maps. -/
def aget {α : Type} : List (String × α) → String → Option α
  | [], _ => none
  | (k, v) :: t, f => if k = f then some v else aget t f

/-- Association-list write: replace the first binding in place, else append. -/
def aset {α : Type} : List (String × α) → String → α → List (String × α)
  | [], f, v => [(f, v)]
  | (k, w) :: t, f, v => if k = f then (f, v) :: t else (k, w) :: aset t f v

/-- Key deletion: Redis DEL removes the key entirely. -/
def adel {α : Type} : List (String × α) → String → List (String × α)
  | [], _ => []
  | (k1, v) :: t, k => if k1 = k then adel t k else (k1, v) :: adel t k

/-- SMEMBERS: members of a set key; a missing key reads as the empty set. -/
def smembers (sets : List (String × List String)) (k : String) : List String :=
  (aget sets k).getD []

/-- SCARD: cardinality of a set key. -/
def scard (sets : List (String × List String)) (k : String) : Nat :=
  (smembers sets k).length

/-- SADD of several members: append the members that are not yet present. -/
def saddMany (sets : List (String × List String)) (k : String)
    (ms : List String) : List (String × List String) :=
  match aget sets k with
  | none => if ms = [] then sets else sets ++ [(k, ms.dedup)]
  | some mem => aset sets k (mem ++ (ms.dedup.filter (fun m => m ∉ mem)))

/-- SADD of one member. -/
def sadd (sets : List (String × List String)) (k m : String) :
    List (String × List String) :=
  saddMany sets k [m]

/-- SREM of several members.  Redis destroys a set key whose last member is
removed, so the key is dropped when the remaining member list is empty. -/
def sremMany (sets : List (String × List String)) (k : String)
    (ms : List String) : List (String × List String) :=
  match aget sets k with
  | none => sets
  | some mem =>
      let mem2 := mem.filter (fun m => m ∉ ms)
      if mem2 = [] then adel sets k else aset sets k mem2

/-- SREM of one member. -/
def srem (sets : List (String × List String)) (k m : String) :
    List (String × List String) :=
  sremMany sets k [m]

/-- The Redis database: record-valued keys, set-valued keys and the integer
timestamp keys. -/
structure RedisDB where
  strings : List (String × Record)
  sets : List (String × List String)
  ints : List (String × Nat)
deriving DecidableEq, Repr

/-- Every existing key of the database, as enumerated by SCAN. -/
def allKeys (db : RedisDB) : List String :=
  db.strings.map Prod.fst ++ db.sets.map Prod.fst ++ db.ints.map Prod.fst

/-- DEL on the whole database (a Redis DEL applies to a key of any type). -/
def dbDelKey (db : RedisDB) (k : String) : RedisDB :=
  { strings := adel db.strings k, sets := adel db.sets k, ints := adel db.ints k }

/-- Glob matching as used by Redis SCAN MATCH, with structural fuel: a star
matches any sequence of characters, a question mark one character, anything
else is literal.  Every recursive call shrinks pattern plus candidate by at
least one character, so the fuel used by globMatch always suffices. -/
def globMatchF : Nat → List Char → List Char → Bool
  | 0, _, _ => false
  | fuel + 1, ps, cs =>
      match ps, cs with
      | [], [] => true
      | [], _ :: _ => false
      | p :: ps2, [] => if p = '*' then globMatchF fuel ps2 [] else false
      | p :: ps2, c :: cs2 =>
          if p = '*' then
            globMatchF fuel ps2 (c :: cs2) || globMatchF fuel (p :: ps2) cs2
          else if p = '?' then globMatchF fuel ps2 cs2
          else p = c && globMatchF fuel ps2 cs2

/-- Glob matching of a pattern against a candidate list of characters. -/
def globMatch (ps cs : List Char) : Bool :=
  globMatchF (ps.length + cs.length + 1) ps cs

/-- Glob matching on strings: pattern first, candidate key second. -/
def globMatchS (pat key : String) : Bool :=
  globMatch pat.toList key.toList

/-- Splitting a character list at every dot, as Python str.split does. -/
def splitD : List Char → List (List Char)
  | [] => [[]]
  | c :: t => if c = '.' then [] :: splitD t
              else match splitD t with
                   | [] => [[c]]
                   | h :: r => (c :: h) :: r

/-- The dot-separated segments of a key; Python len(key.split ...) and the
per-segment unpacking in storage.py are expressed through this. -/
def keySegments (s : String) : List String :=
  (splitD s.toList).map (fun l => String.mk l)

/-- Keys of the storage namespace (section 4.1 of the spec, storage.py). -/
def recordKey (c p i : String) : String :=
  c ++ "." ++ p ++ "." ++ i ++ ".records"

def recordSetKey (c p : String) : String :=
  c ++ "." ++ p ++ ".records"

def deletedKey (c p i : String) : String :=
  c ++ "." ++ p ++ "." ++ i ++ ".deleted"

def deletedSetKey (c p : String) : String :=
  c ++ "." ++ p ++ ".deleted"

def timestampKey (c p : String) : String :=
  c ++ "." ++ p ++ ".timestamp"

/-- Keys of the permission namespace (permission.py). -/
def userKey (u : String) : String :=
  "user:" ++ u

def permKey (oid perm : String) : String :=
  "permission:" ++ oid ++ ":" ++ perm

/-- The exceptions of the backend boundary (kinto.core.storage.exceptions and
the redis client errors). -/
inductive PyErr where
  | redisError (msg : String)
  | backendError (msg : String)
  | recordNotFound (oid : String)
  | unicityError (field : String) (existing : Record)
deriving DecidableEq, Repr

/-- Modelled from the spec: MemoryBasedStorage.bump_timestamp of kinto.core is
not under src/.  Spec section 4.2: the new counter value is the maximum of the
current counter, the explicit timestamp when given, and the current time in
milliseconds, plus one when that maximum collides with the current counter, so
that the counter strictly increases on every call; the value assigned to the
written object equals the new counter (section 3 invariant).  Returns the pair
of the assigned timestamp and the new counter. -/
def bump_timestamp (current : Nat) (now : Nat) (last_modified : Option Nat) :
    Nat × Nat :=
  let m := max (max current now) (last_modified.getD 0)
  let newCounter := if m ≤ current then current + 1 else m
  (newCounter, newCounter)

/-- storage.py bump_and_store_timestamp: read the scope counter key (absent
reads as zero), bump it, store the new counter, return the assigned value.
The WATCH retry loop always succeeds in a sequential execution. -/
def bump_and_store_timestamp (c p : String) (now : Nat)
    (last_modified : Option Nat) (db : RedisDB) : Nat × RedisDB :=
  let key := timestampKey c p
  let current := (aget db.ints key).getD 0
  let bumped := bump_timestamp current now last_modified
  (bumped.1, { db with ints := aset db.ints key bumped.2 })

/-- Modelled from the spec: MemoryBasedStorage.set_record_timestamp of
kinto.core is not under src/.  It bumps and stores the scope counter and
stamps the assigned timestamp onto the record under the modified field. -/
def set_record_timestamp (c p : String) (record : Record)
    (modified_field : String) (now : Nat) (last_modified : Option Nat)
    (db : RedisDB) : Record × RedisDB :=
  let bumped := bump_and_store_timestamp c p now last_modified db
  (rset record modified_field (.num (Int.ofNat bumped.1)), bumped.2)

/-- Modelled from the spec: MemoryBasedStorage.strip_deleted_record of
kinto.core is not under src/.  Spec section 3: a tombstone keeps the
identifier of the object and its deletion timestamp (no extra fields are
preserved by the default configuration). -/
def strip_deleted_record (record : Record) (id_field modified_field : String) :
    Record :=
  (match rget record id_field with
   | some v => [(id_field, v)]
   | none => []) ++
  (match rget record modified_field with
   | some v => [(modified_field, v)]
   | none => [])

/-- storage.py Storage.get: read the record key, not-found when absent. -/
def storage_get (c p oid : String) (db : RedisDB) : Except PyErr Record :=
  match aget db.strings (recordKey c p oid) with
  | none => .error (.recordNotFound oid)
  | some r => .ok r

/-- The common write of create and update: store the encoded record, add the
id to the live-id set and remove it from the tombstone-id set, atomically. -/
def storeRecordTriple (c p i : String) (record : Record) (db : RedisDB) :
    RedisDB :=
  { db with
    strings := aset db.strings (recordKey c p i) record,
    sets := srem (sadd db.sets (recordSetKey c p) i) (deletedSetKey c p) i }

/-- storage.py Storage.create.  The ujson round trip is the identity on the
modelled values.  When the record carries the id field and a live object
exists under that id, a UnicityError carrying the existing object is raised;
otherwise the id is assigned (setdefault with the generated id), the record is
stamped, and the atomic triple write is performed. -/
def storage_create (c p : String) (record : Record)
    (id_field modified_field : String) (generated_id : String) (now : Nat)
    (db : RedisDB) : Except PyErr Record × RedisDB :=
  let conflict :=
    match rget record id_field with
    | some v => aget db.strings (recordKey c p (JVal.fmt v))
    | none => none
  match conflict with
  | some existing => (.error (.unicityError id_field existing), db)
  | none =>
      let assigned := rsetdefault record id_field (.str generated_id)
      let idStr := JVal.fmt assigned.1
      let stamped := set_record_timestamp c p assigned.2 modified_field now none db
      (.ok stamped.1, storeRecordTriple c p idStr stamped.1 stamped.2)

/-- storage.py Storage.update: force the id field to the object id argument,
stamp, and perform the atomic triple write under the object id argument.  No
uniqueness check is made. -/
def storage_update (c p oid : String) (record : Record)
    (id_field modified_field : String) (now : Nat) (db : RedisDB) :
    Except PyErr Record × RedisDB :=
  let record1 := rset record id_field (.str oid)
  let stamped := set_record_timestamp c p record1 modified_field now none db
  (.ok stamped.1, storeRecordTriple c p oid stamped.1 stamped.2)

/-- storage.py Storage.delete: one pipeline reads the record key, deletes it
and removes the id from the live-id set; when the read came back empty a
not-found error is raised (the pipeline has already run).  Otherwise the old
modified field is dropped, the record is re-stamped, stripped to tombstone
shape and, when with_deleted holds, the tombstone is stored and its id added
to the tombstone-id set. -/
def storage_delete (c p oid : String) (with_deleted : Bool)
    (id_field modified_field : String) (last_modified : Option Nat)
    (now : Nat) (db : RedisDB) : Except PyErr Record × RedisDB :=
  let rkey := recordKey c p oid
  let encoded := aget db.strings rkey
  let db1 : RedisDB :=
    { db with
      strings := adel db.strings rkey,
      sets := srem db.sets (recordSetKey c p) oid }
  match encoded with
  | none => (.error (.recordNotFound oid), db1)
  | some existing =>
      let existing1 := rdel existing modified_field
      let stamped := set_record_timestamp c p existing1 modified_field now
        last_modified db1
      let tomb := strip_deleted_record stamped.1 id_field modified_field
      let db3 :=
        if with_deleted then
          { stamped.2 with
            strings := aset stamped.2.strings (deletedKey c p oid) tomb,
            sets := sadd stamped.2.sets (deletedSetKey c p) oid }
        else stamped.2
      (.ok tomb, db3)

/-- Python comparison d[modified_field] < before for an integer before; a
value of another shape never compares smaller (the claims only reach this
with numeric timestamps). -/
def jvalLtInt (v : Option JVal) (b : Int) : Bool :=
  match v with
  | some (.num n) => n < b
  | _ => false

/-- The body of the purge loop for one tombstone-id-set key: bulk-read the
tombstones of the ids in the set, select those older than the bound (all of
them when no bound is given), delete the selected tombstone keys and remove
their ids from the set, and add the number removed to the running count. -/
def purgeScopeStep (before : Option Int) (modified_field : String)
    (acc : Nat × RedisDB) (entry : String × List String) : Nat × RedisDB :=
  let key := entry.1
  let ids := entry.2
  if ids = [] then acc else
  match keySegments key with
  | [cid, pid, _] =>
      let tombKeys := ids.map (fun i => deletedKey cid pid i)
      let deleted := (tombKeys.map (fun k => aget acc.2.strings k)).filterMap id
      let selected :=
        match before with
        | some b => deleted.filter (fun d => jvalLtInt (rget d modified_field) b)
        | none => deleted
      let to_remove := selected.map (fun d => JVal.fmt ((rget d "id").getD .null))
      if to_remove = [] then acc else
      let strings2 := to_remove.foldl
        (fun s i => adel s (deletedKey cid pid i)) acc.2.strings
      let sets2 := sremMany acc.2.sets key to_remove
      (acc.1 + to_remove.length, { acc.2 with strings := strings2, sets := sets2 })
  | _ => acc

/-- storage.py Storage.purge_deleted: enumerate the tombstone-id-set keys
matching the scope pattern (a missing collection_id scans all scopes), keep
those with exactly three dot segments, read their memberships in one
pipeline up front, then run the purge loop over them.  Returns the number of
tombstones removed and the new database. -/
def storage_purge_deleted (collection_id : Option String) (p : String)
    (before : Option Int) (modified_field : String) (db : RedisDB) :
    Nat × RedisDB :=
  let cpat := collection_id.getD "*"
  let pat := deletedSetKey cpat p
  let matched := (allKeys db).filter (fun k => globMatchS pat k)
  let matched2 := matched.filter (fun k => (keySegments k).length == 3)
  let entries := matched2.map (fun k => (k, smembers db.sets k))
  entries.foldl (purgeScopeStep before modified_field) (0, db)

/-- Split a character list at the first occurrence of a character. -/
def splitAtFirst (c : Char) : List Char → Option (List Char × List Char)
  | [] => none
  | x :: t =>
      if x = c then some ([], t)
      else (splitAtFirst c t).map (fun pr => (x :: pr.1, pr.2))

/-- Python key.split with separator colon and maxsplit two, for keys with at
least two colons: the three parts.  Keys with fewer colons would fail the
three-way unpacking in the source; the loops skip them in the embedding and
the claims never reach such keys. -/
def splitColon2 (s : String) : Option (String × String × String) :=
  match splitAtFirst ':' s.toList with
  | none => none
  | some pr =>
      match splitAtFirst ':' pr.2 with
      | none => none
      | some pr2 => some (String.mk pr.1, String.mk pr2.1, String.mk pr2.2)

/-- The last element of Python key.split with separator colon and maxsplit
two (defined for any number of colons, as indexing with minus one is). -/
def splitColon2Last (s : String) : String :=
  match splitAtFirst ':' s.toList with
  | none => s
  | some pr =>
      match splitAtFirst ':' pr.2 with
      | none => String.mk pr.2
      | some pr2 => String.mk pr2.2

/-- Matching of the regular expressions built by get_accessible_objects: the
pattern is a key pattern whose star stands for the group of one or more
characters other than a slash, every other character taken literally (the
claims only use patterns without further regex metacharacters).  Python
re.match anchors at the start only, so a fully consumed pattern accepts any
remaining characters. -/
def rxMatchF : Nat → List Char → List Char → Bool
  | 0, _, _ => false
  | fuel + 1, ps, cs =>
      match ps, cs with
      | [], _ => true
      | _ :: _, [] => false
      | p :: ps2, c :: cs2 =>
          if p = '*' then
            c ≠ '/' && (rxMatchF fuel ps2 cs2 || rxMatchF fuel (p :: ps2) cs2)
          else p = c && rxMatchF fuel ps2 cs2

/-- Regexp matching of a pattern against a candidate list of characters. -/
def rxMatch (ps cs : List Char) : Bool :=
  rxMatchF (ps.length + cs.length + 1) ps cs

/-- rxMatch on strings: pattern first, candidate key second. -/
def rxMatchS (pat key : String) : Bool :=
  rxMatch pat.toList key.toList

/-- permission.py filter_by_regexp: keep every key when no regexps are given,
else the keys matched by some regexp; the source returns a Python set, so the
result is deduplicated. -/
def filter_by_regexp (keys : List String) (regexps : List String) :
    List String :=
  (keys.filter (fun k => regexps = [] || regexps.any (fun r => rxMatchS r k))).dedup

/-- Set union keeping the order of first appearance. -/
def unionL (a b : List String) : List String :=
  a ++ b.filter (fun x => x ∉ a)

/-- permission.py Permission.add_user_principal. -/
def add_user_principal (db : RedisDB) (u principal : String) : RedisDB :=
  { db with sets := sadd db.sets (userKey u) principal }

/-- permission.py Permission.remove_user_principal: SREM, then DEL the key
when its cardinality dropped to zero. -/
def remove_user_principal (db : RedisDB) (u principal : String) : RedisDB :=
  let k := userKey u
  let db1 := { db with sets := srem db.sets k principal }
  if scard db1.sets k = 0 then dbDelKey db1 k else db1

/-- permission.py Permission.remove_principal: scan every user key and remove
the principal from each in one pipeline. -/
def remove_principal (db : RedisDB) (principal : String) : RedisDB :=
  let matched := (allKeys db).filter (fun k => globMatchS "user:*" k)
  { db with sets := matched.foldl (fun s k => srem s k principal) db.sets }

/-- permission.py Permission.get_user_principals: the union of the set of the
user and the set of the universal authenticated key. -/
def get_user_principals (db : RedisDB) (u : String) : List String :=
  unionL (smembers db.sets (userKey u))
    (smembers db.sets (userKey "system.Authenticated"))

/-- permission.py Permission.add_principal_to_ace. -/
def add_principal_to_ace (db : RedisDB) (oid perm principal : String) :
    RedisDB :=
  { db with sets := sadd db.sets (permKey oid perm) principal }

/-- permission.py Permission.remove_principal_from_ace: SREM, then DEL the
key when its cardinality dropped to zero. -/
def remove_principal_from_ace (db : RedisDB) (oid perm principal : String) :
    RedisDB :=
  let k := permKey oid perm
  let db1 := { db with sets := srem db.sets k principal }
  if scard db1.sets k = 0 then dbDelKey db1 k else db1

/-- permission.py Permission.get_object_permission_principals. -/
def get_object_permission_principals (db : RedisDB) (oid perm : String) :
    List String :=
  smembers db.sets (permKey oid perm)

/-- Record one granted permission under its object id in the accumulating
mapping of get_accessible_objects. -/
def gaoAddPerm (acc : List (String × List String)) (oid perm : String) :
    List (String × List String) :=
  match aget acc oid with
  | none => acc ++ [(oid, [perm])]
  | some perms => if perm ∈ perms then acc else aset acc oid (perms ++ [perm])

/-- The loop body of get_accessible_objects for one matched key: read its
principal set; when it intersects the query principals, record the parsed
permission under the parsed object id. -/
def gaoStep (db : RedisDB) (principals : List String)
    (acc : List (String × List String)) (k : String) :
    List (String × List String) :=
  let authorized := smembers db.sets k
  if authorized.any (fun a => a ∈ principals) then
    match splitColon2 k with
    | some parts => gaoAddPerm acc parts.2.1 parts.2.2
    | none => acc
  else acc

/-- The loop body of get_accessible_objects for one scan pattern: glob-scan
the keys, narrow by the regexps when children are suppressed, then process
every surviving key. -/
def gaoPat (db : RedisDB) (principals : List String) (rxs : List String)
    (with_children : Bool) (acc : List (String × List String))
    (pat : String) : List (String × List String) :=
  let matchedKeys := (allKeys db).filter (fun k => globMatchS pat k)
  let matchedKeys2 :=
    if with_children then matchedKeys else filter_by_regexp matchedKeys rxs
  matchedKeys2.foldl (gaoStep db principals) acc

/-- permission.py Permission.get_accessible_objects: one scan pattern per
bound permission (or one universal pattern), an optional regexp narrowing
when children are suppressed, then for every surviving key whose principal
set intersects the query principals the parsed permission is recorded under
the parsed object id. -/
def get_accessible_objects (db : RedisDB) (principals : List String)
    (bounds : List (String × String)) (with_children : Bool) :
    List (String × List String) :=
  let keyPats :=
    if bounds = [] then ["permission:*"]
    else bounds.map (fun op => permKey op.1 op.2)
  let rxs := if bounds = [] then [] else keyPats
  keyPats.foldl (gaoPat db principals rxs with_children) []

/-- permission.py Permission.get_authorized_principals: SUNION over the keys
of the bound permissions, the empty set when none are given. -/
def get_authorized_principals (db : RedisDB)
    (bounds : List (String × String)) : List String :=
  if bounds = [] then []
  else (bounds.map (fun op => smembers db.sets (permKey op.1 op.2))).foldl
    unionL []

/-- The keys read for one object by get_objects_permissions: the keys named
by the current value of the permissions variable when it is truthy, else a
pattern scan over the permission keys of the object itself. -/
def gopKeysFor (db : RedisDB) (oid : String) (permNames : List String) :
    List String :=
  if permNames = [] then
    (allKeys db).filter (fun k => globMatchS (permKey oid "*") k)
  else permNames.map (fun pm => permKey oid pm)

/-- The loop of permission.py Permission.get_objects_permissions.  The source
rebinds its own permissions parameter to the result dict of each object, so
the permission names carried from one iteration to the next are the names of
the nonempty result of the previous object — this threading is
reproduced faithfully. -/
def gopGo (db : RedisDB) : List String → List String →
    List (List (String × List String))
  | _, [] => []
  | permState, oid :: rest =>
      let keys := gopKeysFor db oid permState
      let entry := keys.filterMap (fun k =>
        let principals := smembers db.sets k
        if principals = [] then none
        else some (splitColon2Last k, principals))
      entry :: gopGo db (entry.map Prod.fst) rest

/-- permission.py Permission.get_objects_permissions. -/
def get_objects_permissions (db : RedisDB) (objects_ids : List String)
    (permissions : Option (List String)) :
    List (List (String × List String)) :=
  gopGo db (permissions.getD []) objects_ids

/-- permission.py Permission.replace_object_permissions: per named
permission, DEL the key then SADD the full principal set when nonempty (the
object id is assumed colon-free so the key parse recovers the name). -/
def replace_object_permissions (db : RedisDB) (oid : String)
    (perms : List (String × List String)) : RedisDB :=
  { db with
    sets := perms.foldl (fun s e =>
      let key := permKey oid e.1
      let s1 := adel s key
      if e.2 = [] then s1 else saddMany s1 key e.2) db.sets }

/-- permission.py Permission.delete_object_permissions: scan the permission
keys of every given object id (scans run while the pipeline buffers), then
delete them all at execute. -/
def delete_object_permissions (db : RedisDB) (oids : List String) : RedisDB :=
  let toDelete := oids.foldl (fun acc oid =>
    acc ++ (allKeys db).filter (fun k => globMatchS (permKey oid "*") k)) []
  toDelete.foldl dbDelKey db

/-- storage.py and permission.py flush: FLUSHDB empties the database. -/
def flushdb (_db : RedisDB) : RedisDB :=
  { strings := [], sets := [], ints := [] }

/-- The underlying client as seen from one operation call: either it performs
every command against the database, or it is failing and its first command
raises a store-specific redis error. -/
inductive Client where
  | ok (db : RedisDB)
  | failing
deriving DecidableEq

/-- Run an operation body against the client: a failing client raises a redis
error out of the body. -/
def clientRun {α : Type} (cl : Client) (f : RedisDB → α) : Except PyErr α :=
  match cl with
  | .failing => .error (.redisError "Connection refused.")
  | .ok db => .ok (f db)

/-- storage.py wrap_redis_error: catch redis.RedisError, log it, and re-raise
it as BackendError; every other outcome passes through. -/
def wrap_redis_error {α : Type} : Except PyErr α → Except PyErr α
  | .error (.redisError m) => .error (.backendError m)
  | x => x

/-- Whether a result is an escaped store-specific redis error. -/
def isRedisError {α : Type} : Except PyErr α → Bool
  | .error (.redisError _) => true
  | _ => false

/-!
Boundary versions of the public operations: each is the operation body run
against the client, wrapped with wrap_redis_error exactly when the source
method carries the decorator.  In storage.py every public method is
decorated; in permission.py every public method is decorated except
remove_principal.
-/

def storage_flushOp (cl : Client) : Except PyErr RedisDB :=
  wrap_redis_error (clientRun cl flushdb)

def bump_and_store_timestampOp (cl : Client) (c p : String) (now : Nat)
    (lm : Option Nat) : Except PyErr (Nat × RedisDB) :=
  wrap_redis_error (clientRun cl (bump_and_store_timestamp c p now lm))

def storage_createOp (cl : Client) (c p : String) (record : Record)
    (idf mf gen : String) (now : Nat) :
    Except PyErr (Except PyErr Record × RedisDB) :=
  wrap_redis_error (clientRun cl (storage_create c p record idf mf gen now))

def storage_getOp (cl : Client) (c p oid : String) :
    Except PyErr (Except PyErr Record) :=
  wrap_redis_error (clientRun cl (storage_get c p oid))

def storage_updateOp (cl : Client) (c p oid : String) (record : Record)
    (idf mf : String) (now : Nat) :
    Except PyErr (Except PyErr Record × RedisDB) :=
  wrap_redis_error (clientRun cl (storage_update c p oid record idf mf now))

def storage_deleteOp (cl : Client) (c p oid : String) (wd : Bool)
    (idf mf : String) (lm : Option Nat) (now : Nat) :
    Except PyErr (Except PyErr Record × RedisDB) :=
  wrap_redis_error (clientRun cl (storage_delete c p oid wd idf mf lm now))

def storage_purge_deletedOp (cl : Client) (cid : Option String) (p : String)
    (before : Option Int) (mf : String) : Except PyErr (Nat × RedisDB) :=
  wrap_redis_error (clientRun cl (storage_purge_deleted cid p before mf))

def permission_flushOp (cl : Client) : Except PyErr RedisDB :=
  wrap_redis_error (clientRun cl flushdb)

def add_user_principalOp (cl : Client) (u principal : String) :
    Except PyErr RedisDB :=
  wrap_redis_error (clientRun cl (fun db => add_user_principal db u principal))

def remove_user_principalOp (cl : Client) (u principal : String) :
    Except PyErr RedisDB :=
  wrap_redis_error (clientRun cl (fun db => remove_user_principal db u principal))

/-- Permission.remove_principal carries no wrap_redis_error decorator in the
source, so its boundary version is the bare body. -/
def remove_principalOp (cl : Client) (principal : String) :
    Except PyErr RedisDB :=
  clientRun cl (fun db => remove_principal db principal)

def get_user_principalsOp (cl : Client) (u : String) :
    Except PyErr (List String) :=
  wrap_redis_error (clientRun cl (fun db => get_user_principals db u))

def add_principal_to_aceOp (cl : Client) (oid perm principal : String) :
    Except PyErr RedisDB :=
  wrap_redis_error (clientRun cl (fun db => add_principal_to_ace db oid perm principal))

def remove_principal_from_aceOp (cl : Client) (oid perm principal : String) :
    Except PyErr RedisDB :=
  wrap_redis_error (clientRun cl (fun db => remove_principal_from_ace db oid perm principal))

def get_object_permission_principalsOp (cl : Client) (oid perm : String) :
    Except PyErr (List String) :=
  wrap_redis_error (clientRun cl (fun db => get_object_permission_principals db oid perm))

def get_accessible_objectsOp (cl : Client) (principals : List String)
    (bounds : List (String × String)) (wc : Bool) :
    Except PyErr (List (String × List String)) :=
  wrap_redis_error (clientRun cl (fun db => get_accessible_objects db principals bounds wc))

def get_authorized_principalsOp (cl : Client)
    (bounds : List (String × String)) : Except PyErr (List String) :=
  wrap_redis_error (clientRun cl (fun db => get_authorized_principals db bounds))

def get_objects_permissionsOp (cl : Client) (oids : List String)
    (permissions : Option (List String)) :
    Except PyErr (List (List (String × List String))) :=
  wrap_redis_error (clientRun cl (fun db => get_objects_permissions db oids permissions))

def replace_object_permissionsOp (cl : Client) (oid : String)
    (perms : List (String × List String)) : Except PyErr RedisDB :=
  wrap_redis_error (clientRun cl (fun db => replace_object_permissions db oid perms))

def delete_object_permissionsOp (cl : Client) (oids : List String) :
    Except PyErr RedisDB :=
  wrap_redis_error (clientRun cl (fun db => delete_object_permissions db oids))

/-- The returned timestamps of a sequence of successive
bump_and_store_timestamp calls on one scope, each call taking its own time
value and optional explicit timestamp. -/
def runBumps (c p : String) (db : RedisDB) :
    List (Nat × Option Nat) → List Nat
  | [] => []
  | q :: rest =>
      let r := bump_and_store_timestamp c p q.1 q.2 db
      r.1 :: runBumps c p r.2 rest

/-- The empty database, shared by the concrete witnesses. -/
def dbEmpty : RedisDB := { strings := [], sets := [], ints := [] }

/-- A one-record database used by the C2 witness. -/
def dbWithR1 : RedisDB :=
  { strings := [(recordKey "record" "b1" "r1",
      [("id", JVal.str "r1"), ("last_modified", JVal.num 1)])],
    sets := [(recordSetKey "record" "b1", ["r1"])],
    ints := [(timestampKey "record" "b1", 1)] }

/-- No persisted set key has an empty member list. -/
def NoEmptySets (sets : List (String × List String)) : Prop :=
  ∀ e ∈ sets, e.2 ≠ []

instance (sets : List (String × List String)) : Decidable (NoEmptySets sets) :=
  List.decidableBAll _ sets

/-- A small permission database used by concrete witnesses. -/
def dbPermW : RedisDB :=
  { strings := [],
    sets := [(permKey "o1" "read", ["alice"]),
      (permKey "o2" "write", ["bob"])],
    ints := [] }

/-- A string is a plain key segment when it contains no dot and no glob
metacharacter. -/
def plainSeg (s : String) : Bool :=
  s.toList.all (fun ch => ch ≠ '.' && ch ≠ '*' && ch ≠ '?')

/-- The purge selection predicate: a tombstone is removed when its timestamp
is strictly below the bound, or unconditionally when no bound is given. -/
def removePred (before : Option Int) (t : Int) : Bool :=
  match before with
  | some b => decide (t < b)
  | none => true

/-- A two-tombstone database of the C4 witness: t1 deleted at 100, t2 at
200. -/
def dbPurgeW : RedisDB :=
  { strings := [(deletedKey "record" "b1" "t1",
      [("id", JVal.str "t1"), ("last_modified", JVal.num 100)]),
      (deletedKey "record" "b1" "t2",
      [("id", JVal.str "t2"), ("last_modified", JVal.num 200)])],
    sets := [(deletedSetKey "record" "b1", ["t1", "t2"])],
    ints := [] }

/-- The one-grant database of the C6 witness: alice holds write on the
descendant object bucket1/colA/rec1. -/
def dbChildW : RedisDB :=
  { strings := [],
    sets := [(permKey "bucket1/colA/rec1" "write", ["alice"])],
    ints := [] }

/-!  Lemmas about the association-list primitives.  -/

theorem aget_aset_self {α : Type} (l : List (String × α)) (k : String) (v : α) :
    aget (aset l k v) k = some v := by
  induction l with
  | nil => simp [aset, aget]
  | cons e t ih =>
      obtain ⟨k1, w⟩ := e
      by_cases h : k1 = k <;> simp [aset, aget, h, ih]

theorem aget_aset_ne {α : Type} (l : List (String × α)) (k k2 : String) (v : α)
    (h : k2 ≠ k) : aget (aset l k v) k2 = aget l k2 := by
  induction l with
  | nil => simp [aset, aget, h.symm]
  | cons e t ih =>
      obtain ⟨k1, w⟩ := e
      by_cases h1 : k1 = k
      · subst h1
        simp [aset, aget, h.symm]
      · by_cases h2 : k1 = k2 <;> simp [aset, aget, h1, h2, h, ih]

theorem aset_aget_self {α : Type} (l : List (String × α)) (k : String) (v : α)
    (h : aget l k = some v) : aset l k v = l := by
  induction l with
  | nil => simp [aget] at h
  | cons e t ih =>
      obtain ⟨k1, w⟩ := e
      by_cases h1 : k1 = k
      · subst h1
        simp [aget] at h
        simp [aset, h]
      · simp [aget, h1] at h
        simp [aset, h1, ih h]

theorem aget_adel_self {α : Type} (l : List (String × α)) (k : String) :
    aget (adel l k) k = none := by
  induction l with
  | nil => simp [adel, aget]
  | cons e t ih =>
      obtain ⟨k1, w⟩ := e
      by_cases h : k1 = k <;> simp [adel, aget, h, ih]

theorem aget_adel_ne {α : Type} (l : List (String × α)) (k k2 : String)
    (h : k2 ≠ k) : aget (adel l k) k2 = aget l k2 := by
  induction l with
  | nil => simp [adel]
  | cons e t ih =>
      obtain ⟨k1, w⟩ := e
      by_cases h1 : k1 = k
      · subst h1
        simp [adel, aget, h.symm, ih]
      · by_cases h2 : k1 = k2 <;> simp [adel, aget, h1, h2, h, ih]

theorem adel_of_aget_none {α : Type} (l : List (String × α)) (k : String)
    (h : aget l k = none) : adel l k = l := by
  induction l with
  | nil => simp [adel]
  | cons e t ih =>
      obtain ⟨k1, w⟩ := e
      by_cases h1 : k1 = k
      · simp [aget, h1] at h
      · simp [aget, h1] at h
        simp [adel, h1, ih h]

/-!  Lemmas about the record (dict) primitives.  -/

theorem rget_rset_self (r : Record) (f : String) (v : JVal) :
    rget (rset r f v) f = some v := by
  induction r with
  | nil => simp [rset, rget]
  | cons e t ih =>
      obtain ⟨k1, w⟩ := e
      by_cases h : k1 = f <;> simp [rset, rget, h, ih]

theorem rget_rset_ne (r : Record) (f f2 : String) (v : JVal) (h : f2 ≠ f) :
    rget (rset r f v) f2 = rget r f2 := by
  induction r with
  | nil => simp [rset, rget, h.symm]
  | cons e t ih =>
      obtain ⟨k1, w⟩ := e
      by_cases h1 : k1 = f
      · subst h1
        simp [rset, rget, h.symm]
      · by_cases h2 : k1 = f2 <;> simp [rset, rget, h1, h2, h, ih]

/-!  Lemmas about the set primitives.  -/

theorem smembers_sadd_self (sets : List (String × List String)) (k m : String) :
    m ∈ smembers (sadd sets k m) k := by
  unfold sadd saddMany
  cases h : aget sets k with
  | none =>
      simp only [h]
      have haux : aget (sets ++ [(k, [m])]) k = some [m] := by
        induction sets with
        | nil => simp [aget]
        | cons e t ih =>
            obtain ⟨k1, w⟩ := e
            by_cases h1 : k1 = k
            · subst h1; simp [aget] at h
            · simp [aget, h1] at h ⊢
              exact ih h
      simp [smembers, haux]
  | some mem =>
      simp only [h]
      rw [smembers, aget_aset_self]
      by_cases hm : m ∈ mem <;> simp [hm]

theorem smembers_srem (sets : List (String × List String)) (k m : String) :
    m ∉ smembers (srem sets k m) k := by
  unfold srem sremMany
  cases h : aget sets k with
  | none => simp [smembers, h]
  | some mem =>
      simp only [h]
      by_cases he : mem.filter (fun x => decide (x ∉ [m])) = []
      · rw [if_pos he]
        simp [smembers, aget_adel_self]
      · rw [if_neg he]
        rw [smembers, aget_aset_self]
        simp

theorem srem_of_aget_none (sets : List (String × List String)) (k m : String)
    (h : aget sets k = none) : srem sets k m = sets := by
  unfold srem sremMany
  simp [h]

theorem srem_not_mem (sets : List (String × List String)) (k m : String)
    (mem : List String) (h : aget sets k = some mem) (hm : m ∉ mem)
    (hne : mem ≠ []) : srem sets k m = sets := by
  unfold srem sremMany
  simp only [h]
  have hf : mem.filter (fun x => x ∉ [m]) = mem := by
    apply List.filter_eq_self.mpr
    intro x hx
    simp only [List.mem_singleton, decide_eq_true_eq]
    intro hxm
    exact hm (hxm ▸ hx)
  rw [hf, if_neg hne]
  exact aset_aget_self _ _ _ h

/-!  Lemmas about the timestamp machinery.  -/

theorem bump_store_gt (c p : String) (now : Nat) (lm : Option Nat)
    (db : RedisDB) :
    (aget db.ints (timestampKey c p)).getD 0 <
      (bump_and_store_timestamp c p now lm db).1 := by
  unfold bump_and_store_timestamp bump_timestamp
  set current := (aget db.ints (timestampKey c p)).getD 0 with hc
  simp only []
  split <;> omega

theorem bump_store_get (c p : String) (now : Nat) (lm : Option Nat)
    (db : RedisDB) :
    aget (bump_and_store_timestamp c p now lm db).2.ints (timestampKey c p) =
      some (bump_and_store_timestamp c p now lm db).1 := by
  unfold bump_and_store_timestamp bump_timestamp
  simp only []
  exact aget_aset_self _ _ _

theorem bump_store_strings (c p : String) (now : Nat) (lm : Option Nat)
    (db : RedisDB) :
    (bump_and_store_timestamp c p now lm db).2.strings = db.strings := rfl

theorem bump_store_sets (c p : String) (now : Nat) (lm : Option Nat)
    (db : RedisDB) :
    (bump_and_store_timestamp c p now lm db).2.sets = db.sets := rfl

theorem set_rts_strings (c p : String) (record : Record) (mf : String)
    (now : Nat) (lm : Option Nat) (db : RedisDB) :
    (set_record_timestamp c p record mf now lm db).2.strings = db.strings :=
  rfl

theorem set_rts_sets (c p : String) (record : Record) (mf : String)
    (now : Nat) (lm : Option Nat) (db : RedisDB) :
    (set_record_timestamp c p record mf now lm db).2.sets = db.sets :=
  rfl

theorem runBumps_chain (c p : String) :
    ∀ (params : List (Nat × Option Nat)) (db : RedisDB),
      List.Chain' (· < ·) (runBumps c p db params) := by
  intro params
  induction params with
  | nil => intro db; simp [runBumps]
  | cons q rest ih =>
      intro db
      rw [runBumps]
      apply List.chain'_cons'.mpr
      refine ⟨?_, ih _⟩
      intro y hy
      cases rest with
      | nil => simp [runBumps] at hy
      | cons q2 rest2 =>
          rw [runBumps] at hy
          simp only [List.head?_cons, Option.mem_def, Option.some.injEq] at hy
          subst hy
          have hg := bump_store_get c p q.1 q.2 db
          have := bump_store_gt c p q2.1 q2.2
            (bump_and_store_timestamp c p q.1 q.2 db).2
          rw [hg] at this
          simpa using this

/-- C1: every call to bump_and_store_timestamp strictly increases the stored
scope counter (the new stored counter equals the returned timestamp and is
strictly above the previous counter), a sequence of successive calls on one
scope returns a pairwise strictly increasing sequence of timestamps, and the
timestamp stamped onto the written record by set_record_timestamp equals the
value assigned by that call. -/
theorem bump_and_store_timestamp_strictly_monotonic :
    ∀ (c p : String) (now : Nat) (lm : Option Nat) (db : RedisDB),
      ((aget db.ints (timestampKey c p)).getD 0 <
        (bump_and_store_timestamp c p now lm db).1) ∧
      (aget (bump_and_store_timestamp c p now lm db).2.ints
        (timestampKey c p) = some (bump_and_store_timestamp c p now lm db).1) ∧
      (∀ (record : Record) (mf : String),
        rget (set_record_timestamp c p record mf now lm db).1 mf =
          some (.num (Int.ofNat (bump_and_store_timestamp c p now lm db).1))) ∧
      (∀ params : List (Nat × Option Nat),
        (runBumps c p db params).Pairwise (· < ·)) := by
  intro c p now lm db
  refine ⟨bump_store_gt c p now lm db, bump_store_get c p now lm db, ?_, ?_⟩
  · intro record mf
    unfold set_record_timestamp
    exact rget_rset_self _ _ _
  · intro params
    exact List.chain'_iff_pairwise.mp (runBumps_chain c p params db)

/-- C2: when the record carries the id field, create fails with a
UnicityError carrying the pre-existing live object when one exists under
that id in the scope, and otherwise succeeds and stores the stamped record
under the record key of that id. -/
theorem storage_create_unicity :
    ∀ (c p : String) (record : Record) (idf mf gen : String) (now : Nat)
      (db : RedisDB) (v : JVal),
      rget record idf = some v →
      ((∀ existing : Record,
          aget db.strings (recordKey c p (JVal.fmt v)) = some existing →
          storage_create c p record idf mf gen now db =
            (.error (.unicityError idf existing), db)) ∧
        (aget db.strings (recordKey c p (JVal.fmt v)) = none →
          (storage_create c p record idf mf gen now db).1 =
            .ok (rset record mf
              (.num (Int.ofNat (bump_and_store_timestamp c p now none db).1))) ∧
          aget (storage_create c p record idf mf gen now db).2.strings
              (recordKey c p (JVal.fmt v)) =
            some (rset record mf
              (.num (Int.ofNat (bump_and_store_timestamp c p now none db).1))))) := by
  intro c p record idf mf gen now db v h
  constructor
  · intro existing hex
    unfold storage_create
    simp only [h, hex]
  · intro hnone
    unfold storage_create
    simp only [h, hnone]
    unfold rsetdefault
    simp only [h]
    unfold set_record_timestamp
    refine ⟨rfl, ?_⟩
    unfold storeRecordTriple
    simp only []
    rw [bump_store_strings]
    exact aget_aset_self _ _ _

theorem recordKey_ne_deletedKey (c p i c2 p2 i2 : String) :
    recordKey c p i ≠ deletedKey c2 p2 i2 := by
  intro h
  have hd := congrArg String.data h
  rw [recordKey, deletedKey] at hd
  simp only [String.data_append] at hd
  have hlen : (String.data ".records").length = (String.data ".deleted").length := by
    decide
  have := (List.append_inj' hd hlen).2
  simp at this

theorem storage_create_unicity_witness :
    storage_create "record" "b1" [("id", JVal.str "r1")] "id" "last_modified"
        "g" 5 dbWithR1 =
      (.error (.unicityError "id"
        [("id", JVal.str "r1"), ("last_modified", JVal.num 1)]), dbWithR1) ∧
    (storage_create "record" "b1" [("id", JVal.str "r1")] "id" "last_modified"
        "g" 5 dbEmpty).1 =
      .ok [("id", JVal.str "r1"), ("last_modified", JVal.num 5)] := by
  constructor
  · exact (storage_create_unicity "record" "b1" [("id", JVal.str "r1")] "id"
      "last_modified" "g" 5 dbWithR1 (JVal.str "r1") rfl).1 _ (by decide)
  · have h := (storage_create_unicity "record" "b1" [("id", JVal.str "r1")]
      "id" "last_modified" "g" 5 dbEmpty (JVal.str "r1") rfl).2 (by decide)
    rw [h.1]
    simp only [Except.ok.injEq]
    decide

/-- C3: delete raises not-found exactly when no live object is stored under
the record key of that id, and after a successful delete of an existing
object a get on the same scope and id fails with the not-found error. -/
theorem storage_delete_not_found_iff :
    ∀ (c p oid : String) (wd : Bool) (idf mf : String) (lm : Option Nat)
      (now : Nat) (db : RedisDB),
      ((storage_delete c p oid wd idf mf lm now db).1 =
          .error (.recordNotFound oid) ↔
        aget db.strings (recordKey c p oid) = none) ∧
      (∀ r : Record,
        aget db.strings (recordKey c p oid) = some r →
        storage_get c p oid (storage_delete c p oid wd idf mf lm now db).2 =
          .error (.recordNotFound oid)) := by
  intro c p oid wd idf mf lm now db
  constructor
  · cases h : aget db.strings (recordKey c p oid) with
    | none =>
        unfold storage_delete
        simp [h]
    | some r =>
        unfold storage_delete
        simp [h]
  · intro r h
    have hstr : aget (storage_delete c p oid wd idf mf lm now db).2.strings
        (recordKey c p oid) = none := by
      unfold storage_delete
      simp only [h]
      cases wd with
      | false =>
          rw [if_neg (by simp)]
          rw [set_rts_strings]
          exact aget_adel_self _ _
      | true =>
          rw [if_pos (by simp)]
          simp only []
          rw [aget_aset_ne _ _ _ _ (recordKey_ne_deletedKey c p oid c p oid)]
          rw [set_rts_strings]
          exact aget_adel_self _ _
    unfold storage_get
    simp [hstr]

theorem storage_delete_not_found_iff_witness :
    storage_get "record" "b1" "r1"
        (storage_delete "record" "b1" "r1" true "id" "last_modified" none 9
          dbWithR1).2 =
      .error (.recordNotFound "r1") :=
  (storage_delete_not_found_iff "record" "b1" "r1" true "id" "last_modified"
    none 9 dbWithR1).2 _ rfl

/-- C9: update stores, under the record key built from the object id
argument, a record whose id field equals that object id, whatever id value
(or none) the input record carried; the stored record is the input with the
id field forced and the fresh timestamp stamped. -/
theorem storage_update_forces_id :
    ∀ (c p oid : String) (record : Record) (idf mf : String) (now : Nat)
      (db : RedisDB),
      idf ≠ mf →
      ((storage_update c p oid record idf mf now db).1 =
        .ok (rset (rset record idf (.str oid)) mf
          (.num (Int.ofNat (bump_and_store_timestamp c p now none db).1)))) ∧
      (aget (storage_update c p oid record idf mf now db).2.strings
          (recordKey c p oid) =
        some (rset (rset record idf (.str oid)) mf
          (.num (Int.ofNat (bump_and_store_timestamp c p now none db).1)))) ∧
      (rget (rset (rset record idf (.str oid)) mf
          (.num (Int.ofNat (bump_and_store_timestamp c p now none db).1))) idf =
        some (.str oid)) := by
  intro c p oid record idf mf now db hne
  refine ⟨rfl, ?_, ?_⟩
  · unfold storage_update set_record_timestamp storeRecordTriple
    simp only []
    rw [bump_store_strings]
    exact aget_aset_self _ _ _
  · rw [rget_rset_ne _ _ _ _ hne]
    exact rget_rset_self _ _ _

theorem storage_update_forces_id_witness :
    ((storage_update "record" "b1" "r9" [("id", JVal.str "other"),
        ("v", JVal.num 2)] "id" "last_modified" 7 dbEmpty).1 =
      .ok (rset (rset [("id", JVal.str "other"), ("v", JVal.num 2)] "id"
        (.str "r9")) "last_modified"
        (.num (Int.ofNat (bump_and_store_timestamp "record" "b1" 7 none
          dbEmpty).1)))) ∧
    (aget (storage_update "record" "b1" "r9" [("id", JVal.str "other"),
        ("v", JVal.num 2)] "id" "last_modified" 7 dbEmpty).2.strings
        (recordKey "record" "b1" "r9") =
      some (rset (rset [("id", JVal.str "other"), ("v", JVal.num 2)] "id"
        (.str "r9")) "last_modified"
        (.num (Int.ofNat (bump_and_store_timestamp "record" "b1" 7 none
          dbEmpty).1)))) ∧
    (rget (rset (rset [("id", JVal.str "other"), ("v", JVal.num 2)] "id"
        (.str "r9")) "last_modified"
        (.num (Int.ofNat (bump_and_store_timestamp "record" "b1" 7 none
          dbEmpty).1))) "id" =
      some (.str "r9")) :=
  storage_update_forces_id "record" "b1" "r9"
    [("id", JVal.str "other"), ("v", JVal.num 2)] "id" "last_modified" 7
    dbEmpty (by decide)

/-- C10: when no live object exists at the scope and id, meaning the record
key is absent and the id is not in the live-id set, delete raises the
not-found error and leaves the database exactly as it was: no tombstone, no
set change, no timestamp bump.  The disjunctive hypothesis states that the
live-id set, when it exists, is nonempty, which holds of every
Redis-reachable state since Redis destroys a set key that becomes empty. -/
theorem storage_delete_missing_unchanged :
    ∀ (c p oid : String) (wd : Bool) (idf mf : String) (lm : Option Nat)
      (now : Nat) (db : RedisDB),
      aget db.strings (recordKey c p oid) = none →
      oid ∉ smembers db.sets (recordSetKey c p) →
      (smembers db.sets (recordSetKey c p) ≠ [] ∨
        aget db.sets (recordSetKey c p) = none) →
      storage_delete c p oid wd idf mf lm now db =
        (.error (.recordNotFound oid), db) := by
  intro c p oid wd idf mf lm now db hs hm hwf
  unfold storage_delete
  simp only [hs]
  have h1 : adel db.strings (recordKey c p oid) = db.strings :=
    adel_of_aget_none _ _ hs
  have h2 : srem db.sets (recordSetKey c p) oid = db.sets := by
    cases hset : aget db.sets (recordSetKey c p) with
    | none => exact srem_of_aget_none _ _ _ hset
    | some mem =>
        have hmem : smembers db.sets (recordSetKey c p) = mem := by
          simp [smembers, hset]
        rcases hwf with hne | hno
        · exact srem_not_mem _ _ _ mem hset (hmem ▸ hm) (hmem ▸ hne)
        · rw [hset] at hno; cases hno
  rw [h1, h2]

theorem storage_delete_missing_unchanged_witness :
    storage_delete "record" "b1" "zz" true "id" "last_modified" none 9
        dbWithR1 =
      (.error (.recordNotFound "zz"), dbWithR1) :=
  storage_delete_missing_unchanged "record" "b1" "zz" true "id"
    "last_modified" none 9 dbWithR1 (by decide) (by decide)
    (Or.inl (by decide))

/-!  Lemmas for the no-empty-set invariant of the permission engine.  -/

theorem mem_of_aget {α : Type} (l : List (String × α)) (k : String) (v : α)
    (h : aget l k = some v) : (k, v) ∈ l := by
  induction l with
  | nil => simp [aget] at h
  | cons e t ih =>
      obtain ⟨k1, w⟩ := e
      by_cases h1 : k1 = k
      · subst h1
        simp [aget] at h
        simp [h]
      · simp [aget, h1] at h
        simp [ih h]

theorem mem_aset {α : Type} (l : List (String × α)) (k : String) (v : α)
    (e : String × α) (h : e ∈ aset l k v) : e = (k, v) ∨ e ∈ l := by
  induction l with
  | nil => simp [aset] at h; simp [h]
  | cons e2 t ih =>
      obtain ⟨k1, w⟩ := e2
      by_cases h1 : k1 = k
      · subst h1
        simp [aset] at h
        rcases h with h | h <;> simp [h]
      · simp [aset, h1] at h
        rcases h with h | h
        · simp [h]
        · rcases ih h with h2 | h2 <;> simp [h2]

theorem mem_adel {α : Type} (l : List (String × α)) (k : String)
    (e : String × α) (h : e ∈ adel l k) : e ∈ l := by
  induction l with
  | nil => simp [adel] at h
  | cons e2 t ih =>
      obtain ⟨k1, w⟩ := e2
      by_cases h1 : k1 = k
      · simp [adel, h1] at h
        simp [ih h]
      · simp [adel, h1] at h
        rcases h with h | h
        · simp [h]
        · simp [ih h]

theorem noEmpty_aget_ne (sets : List (String × List String))
    (h : NoEmptySets sets) (k : String) : aget sets k ≠ some [] := by
  intro hk
  exact h _ (mem_of_aget _ _ _ hk) rfl

theorem noEmpty_adel (sets : List (String × List String))
    (h : NoEmptySets sets) (k : String) : NoEmptySets (adel sets k) :=
  fun e he => h e (mem_adel _ _ _ he)

theorem noEmpty_aset (sets : List (String × List String))
    (h : NoEmptySets sets) (k : String) (v : List String) (hv : v ≠ []) :
    NoEmptySets (aset sets k v) := by
  intro e he
  rcases mem_aset _ _ _ _ he with h2 | h2
  · subst h2; exact hv
  · exact h e h2

theorem noEmpty_saddMany (sets : List (String × List String))
    (h : NoEmptySets sets) (k : String) (ms : List String) :
    NoEmptySets (saddMany sets k ms) := by
  unfold saddMany
  cases hk : aget sets k with
  | none =>
      by_cases hms : ms = []
      · simp only [hms, if_pos rfl]
        exact h
      · rw [if_neg hms]
        intro e he
        rcases List.mem_append.mp he with h2 | h2
        · exact h e h2
        · simp at h2
          subst h2
          simpa [List.dedup_eq_nil] using hms
  | some mem =>
      apply noEmpty_aset _ h
      have : mem ≠ [] := h _ (mem_of_aget _ _ _ hk)
      intro hx
      exact this (List.append_eq_nil.mp hx).1

theorem noEmpty_sadd (sets : List (String × List String))
    (h : NoEmptySets sets) (k m : String) : NoEmptySets (sadd sets k m) :=
  noEmpty_saddMany sets h k [m]

theorem noEmpty_sremMany (sets : List (String × List String))
    (h : NoEmptySets sets) (k : String) (ms : List String) :
    NoEmptySets (sremMany sets k ms) := by
  cases hk : aget sets k with
  | none =>
      unfold sremMany
      simp only [hk]
      exact h
  | some mem =>
      unfold sremMany
      simp only [hk]
      by_cases he : mem.filter (fun m => decide (m ∉ ms)) = []
      · rw [if_pos he]
        exact noEmpty_adel _ h _
      · rw [if_neg he]
        exact noEmpty_aset _ h _ _ he

theorem noEmpty_srem (sets : List (String × List String))
    (h : NoEmptySets sets) (k m : String) : NoEmptySets (srem sets k m) :=
  noEmpty_sremMany sets h k [m]

theorem noEmpty_srem_fold (keys : List String)
    (sets : List (String × List String)) (h : NoEmptySets sets)
    (principal : String) :
    NoEmptySets (keys.foldl (fun s k => srem s k principal) sets) := by
  induction keys generalizing sets with
  | nil => exact h
  | cons k rest ih => exact ih _ (noEmpty_srem _ h _ _)

theorem noEmpty_remove_ace (db : RedisDB) (h : NoEmptySets db.sets)
    (oid perm principal : String) :
    NoEmptySets (remove_principal_from_ace db oid perm principal).sets := by
  unfold remove_principal_from_ace
  have h1 : NoEmptySets (srem db.sets (permKey oid perm) principal) :=
    noEmpty_srem _ h _ _
  dsimp only
  split
  · exact noEmpty_adel _ h1 _
  · exact h1

theorem noEmpty_remove_user (db : RedisDB) (h : NoEmptySets db.sets)
    (u principal : String) :
    NoEmptySets (remove_user_principal db u principal).sets := by
  unfold remove_user_principal
  have h1 : NoEmptySets (srem db.sets (userKey u) principal) :=
    noEmpty_srem _ h _ _
  dsimp only
  split
  · exact noEmpty_adel _ h1 _
  · exact h1

theorem noEmpty_replace (db : RedisDB) (h : NoEmptySets db.sets)
    (oid : String) (perms : List (String × List String)) :
    NoEmptySets (replace_object_permissions db oid perms).sets := by
  unfold replace_object_permissions
  simp only []
  induction perms generalizing db with
  | nil => exact h
  | cons e rest ih =>
      rw [List.foldl_cons]
      have step : NoEmptySets
          (let s1 := adel db.sets (permKey oid e.1)
           if e.2 = [] then s1 else saddMany s1 (permKey oid e.1) e.2) := by
        simp only []
        split
        · exact noEmpty_adel _ h _
        · exact noEmpty_saddMany _ (noEmpty_adel _ h _) _ _
      exact ih { db with sets := _ } step

theorem noEmpty_dbDel_fold (keys : List String) (db : RedisDB)
    (h : NoEmptySets db.sets) : NoEmptySets (keys.foldl dbDelKey db).sets := by
  induction keys generalizing db with
  | nil => exact h
  | cons k rest ih => exact ih _ (noEmpty_adel _ h _)

theorem remove_ace_last_absent (db : RedisDB) (oid perm principal : String)
    (h : smembers db.sets (permKey oid perm) = [principal]) :
    aget (remove_principal_from_ace db oid perm principal).sets
      (permKey oid perm) = none := by
  have haget : aget db.sets (permKey oid perm) = some [principal] := by
    unfold smembers at h
    cases hk : aget db.sets (permKey oid perm) with
    | none => rw [hk] at h; simp at h
    | some mem => rw [hk] at h; simp at h; rw [h]
  have hsrem : srem db.sets (permKey oid perm) principal =
      adel db.sets (permKey oid perm) := by
    unfold srem sremMany
    simp only [haget]
    rw [if_pos (by simp)]
  unfold remove_principal_from_ace
  dsimp only
  rw [hsrem]
  rw [if_pos (by simp [scard, smembers, aget_adel_self])]
  exact aget_adel_self _ _

theorem remove_user_last_absent (db : RedisDB) (u principal : String)
    (h : smembers db.sets (userKey u) = [principal]) :
    aget (remove_user_principal db u principal).sets (userKey u) = none := by
  have haget : aget db.sets (userKey u) = some [principal] := by
    unfold smembers at h
    cases hk : aget db.sets (userKey u) with
    | none => rw [hk] at h; simp at h
    | some mem => rw [hk] at h; simp at h; rw [h]
  have hsrem : srem db.sets (userKey u) principal =
      adel db.sets (userKey u) := by
    unfold srem sremMany
    simp only [haget]
    rw [if_pos (by simp)]
  unfold remove_user_principal
  dsimp only
  rw [hsrem]
  rw [if_pos (by simp [scard, smembers, aget_adel_self])]
  exact aget_adel_self _ _

/-- C5: removals that empty a principal set leave the key absent from the
store (never present as an empty set; removing the last principal makes the
key read as absent), and no permission-engine operation leaves a persisted
set key with zero members, assuming the store starts in a Redis-reachable
state with no empty set key. -/
theorem permission_no_empty_sets :
    ∀ (db : RedisDB), NoEmptySets db.sets →
      ∀ (u oid perm principal : String)
        (perms : List (String × List String)) (oids : List String),
        (aget (remove_principal_from_ace db oid perm principal).sets
          (permKey oid perm) ≠ some []) ∧
        (aget (remove_user_principal db u principal).sets (userKey u) ≠
          some []) ∧
        (smembers db.sets (permKey oid perm) = [principal] →
          aget (remove_principal_from_ace db oid perm principal).sets
            (permKey oid perm) = none) ∧
        (smembers db.sets (userKey u) = [principal] →
          aget (remove_user_principal db u principal).sets (userKey u) =
            none) ∧
        NoEmptySets (remove_principal_from_ace db oid perm principal).sets ∧
        NoEmptySets (remove_user_principal db u principal).sets ∧
        NoEmptySets (add_user_principal db u principal).sets ∧
        NoEmptySets (add_principal_to_ace db oid perm principal).sets ∧
        NoEmptySets (remove_principal db principal).sets ∧
        NoEmptySets (replace_object_permissions db oid perms).sets ∧
        NoEmptySets (delete_object_permissions db oids).sets ∧
        NoEmptySets (flushdb db).sets := by
  intro db h u oid perm principal perms oids
  refine ⟨noEmpty_aget_ne _ (noEmpty_remove_ace db h oid perm principal) _,
    noEmpty_aget_ne _ (noEmpty_remove_user db h u principal) _,
    remove_ace_last_absent db oid perm principal,
    remove_user_last_absent db u principal,
    noEmpty_remove_ace db h oid perm principal,
    noEmpty_remove_user db h u principal,
    noEmpty_sadd _ h _ _,
    noEmpty_sadd _ h _ _,
    noEmpty_srem_fold _ _ h _,
    noEmpty_replace db h oid perms,
    ?_, ?_⟩
  · unfold delete_object_permissions
    exact noEmpty_dbDel_fold _ _ h
  · intro e he
    simp [flushdb] at he

theorem permission_no_empty_sets_witness :
    (aget (remove_principal_from_ace dbPermW "o1" "read" "alice").sets
      (permKey "o1" "read") ≠ some []) ∧
    aget (remove_principal_from_ace dbPermW "o1" "read" "alice").sets
      (permKey "o1" "read") = none :=
  ⟨(permission_no_empty_sets dbPermW (by decide) "u1" "o1" "read" "alice" []
    []).1,
   (permission_no_empty_sets dbPermW (by decide) "u1" "o1" "read" "alice" []
    []).2.2.1 (by decide)⟩

/-- C7: evaluation of get_objects_permissions at the failing input.  With
permissions None, object o1 holding read for alice and object o2 holding
write for bob, the call on the id list o1, o2 returns the read mapping for
o1 but the empty mapping for o2: the source rebinds its permissions
parameter to the result dict of o1, so the keys read for o2 are built from
the permission names of o1 instead of a pattern scan of the keys of o2.
The call on o2 alone shows the scan itself would find the write grant. -/
theorem get_objects_permissions_shadowing :
    get_objects_permissions dbPermW ["o1", "o2"] none =
      [[("read", ["alice"])], []] ∧
    get_objects_permissions dbPermW ["o2"] none = [[("write", ["bob"])]] :=
  ⟨by decide, by decide⟩

/-!  Lemmas for purge_deleted (C4): strings, glob patterns, key splitting.  -/

theorem str_toList_append (a b : String) :
    (a ++ b).toList = a.toList ++ b.toList :=
  String.data_append a b

theorem str_mk_toList (s : String) : String.mk s.toList = s := rfl

theorem globMatchF_plain :
    ∀ (fuel : Nat) (ps cs : List Char),
      ps.all (fun ch => ch ≠ '*' && ch ≠ '?') = true →
      ps.length + cs.length < fuel →
      (globMatchF fuel ps cs = true ↔ ps = cs) := by
  intro fuel
  induction fuel with
  | zero => intro ps cs _ hlen; omega
  | succ fuel ih =>
      intro ps cs hplain hlen
      cases ps with
      | nil => cases cs <;> simp [globMatchF]
      | cons q ps2 =>
          simp only [List.all_cons, Bool.and_eq_true, decide_eq_true_eq] at hplain
          obtain ⟨⟨hq1, hq2⟩, hrest⟩ := hplain
          cases cs with
          | nil =>
              simp only [globMatchF]
              rw [if_neg hq1]
              simp
          | cons d cs2 =>
              simp only [globMatchF]
              rw [if_neg hq1, if_neg hq2]
              have hih := ih ps2 cs2 hrest (by simp at hlen; omega)
              simp [hih]

theorem globMatchS_plain (pat k : String)
    (h : pat.toList.all (fun ch => ch ≠ '*' && ch ≠ '?') = true) :
    globMatchS pat k = decide (pat = k) := by
  have hiff : globMatchS pat k = true ↔ pat = k := by
    unfold globMatchS globMatch
    rw [globMatchF_plain _ _ _ h (by omega)]
    constructor
    · intro he
      have := congrArg String.mk he
      simpa [str_mk_toList] using this
    · intro he; rw [he]
  by_cases hq : pat = k
  · simp [hq] at hiff ⊢
    exact hiff
  · simp [hq] at hiff ⊢
    exact hiff

theorem splitD_ne_nil (l : List Char) : splitD l ≠ [] := by
  cases l with
  | nil => simp [splitD]
  | cons c t =>
      by_cases h : c = '.'
      · simp [splitD, h]
      · simp only [splitD, if_neg h]
        cases hs : splitD t <;> simp

theorem splitD_no_dot (l : List Char) (h : '.' ∉ l) : splitD l = [l] := by
  induction l with
  | nil => rfl
  | cons c t ih =>
      have hc : c ≠ '.' := fun he => h (he ▸ List.mem_cons_self c t)
      have ht : '.' ∉ t := fun hm => h (List.mem_cons_of_mem c hm)
      simp only [splitD, if_neg hc, ih ht]

theorem splitD_append_dot (a rest : List Char) (h : '.' ∉ a) :
    splitD (a ++ '.' :: rest) = a :: splitD rest := by
  induction a with
  | nil => simp [splitD]
  | cons c t ih =>
      have hc : c ≠ '.' := fun he => h (he ▸ List.mem_cons_self c t)
      have ht : '.' ∉ t := fun hm => h (List.mem_cons_of_mem c hm)
      simp only [List.cons_append, splitD, if_neg hc, List.append_eq]
      rw [ih ht]

theorem plainSeg_no_dot (s : String) (h : plainSeg s = true) :
    '.' ∉ s.toList := by
  intro hm
  unfold plainSeg at h
  rw [List.all_eq_true] at h
  have := h '.' hm
  simp at this

theorem plainSeg_no_meta (s : String) (h : plainSeg s = true) :
    s.toList.all (fun ch => ch ≠ '*' && ch ≠ '?') = true := by
  unfold plainSeg at h
  rw [List.all_eq_true] at h ⊢
  intro ch hch
  have := h ch hch
  simp at this ⊢
  exact ⟨this.1.2, this.2⟩

theorem deletedSetKey_toList (c p : String) :
    (deletedSetKey c p).toList =
      c.toList ++ '.' :: (p.toList ++ '.' :: "deleted".toList) := by
  unfold deletedSetKey
  rw [str_toList_append, str_toList_append, str_toList_append]
  have h1 : (".").toList = ['.'] := rfl
  have h2 : (".deleted").toList = '.' :: "deleted".toList := rfl
  rw [h1, h2]
  simp [List.append_assoc]

theorem keySegments_deletedSetKey (c p : String) (hc : plainSeg c = true)
    (hp : plainSeg p = true) :
    keySegments (deletedSetKey c p) = [c, p, "deleted"] := by
  unfold keySegments
  rw [deletedSetKey_toList,
    splitD_append_dot _ _ (plainSeg_no_dot c hc),
    splitD_append_dot _ _ (plainSeg_no_dot p hp),
    splitD_no_dot _ (by decide)]
  simp [str_mk_toList]

theorem deletedSetKey_plain (c p : String) (hc : plainSeg c = true)
    (hp : plainSeg p = true) :
    (deletedSetKey c p).toList.all (fun ch => ch ≠ '*' && ch ≠ '?') = true := by
  rw [deletedSetKey_toList]
  simp only [List.all_append, List.all_cons, Bool.and_eq_true]
  refine ⟨plainSeg_no_meta c hc, by decide, plainSeg_no_meta p hp, by decide,
    by decide⟩

theorem filter_keyEq_nil (l : List String) (a : String) (h : a ∉ l) :
    l.filter (fun k => decide (a = k)) = [] := by
  induction l with
  | nil => rfl
  | cons x t ih =>
      have hx : a ≠ x := fun he => h (he ▸ List.mem_cons_self x t)
      have ht : a ∉ t := fun hm => h (List.mem_cons_of_mem x hm)
      simp [List.filter_cons, hx, ih ht]

theorem filter_keyEq_single (l : List String) (a : String) (hnd : l.Nodup)
    (ha : a ∈ l) : l.filter (fun k => decide (a = k)) = [a] := by
  induction l with
  | nil => simp at ha
  | cons x t ih =>
      rw [List.nodup_cons] at hnd
      rcases List.mem_cons.mp ha with h1 | h1
      · subst h1
        rw [List.filter_cons, if_pos (by simp), filter_keyEq_nil t _ hnd.1]
      · have hx : a ≠ x := fun he => hnd.1 (he ▸ h1)
        rw [List.filter_cons, if_neg (by simpa using hx)]
        exact ih hnd.2 h1

/-!  Fold-of-delete lemmas for purge.  -/

theorem aget_foldl_adel_preserve {α : Type} (g : String → String)
    (R : List String) (s : List (String × α)) (k : String)
    (h : aget s k = none) :
    aget (R.foldl (fun s2 i => adel s2 (g i)) s) k = none := by
  induction R generalizing s with
  | nil => exact h
  | cons i rest ih =>
      apply ih
      by_cases he : k = g i
      · subst he; exact aget_adel_self _ _
      · rw [aget_adel_ne _ _ _ he]; exact h

theorem aget_foldl_adel_of_mem {α : Type} (g : String → String)
    (R : List String) (s : List (String × α)) (k : String)
    (h : ∃ i ∈ R, g i = k) :
    aget (R.foldl (fun s2 i => adel s2 (g i)) s) k = none := by
  induction R generalizing s with
  | nil => simp at h
  | cons i0 rest ih =>
      obtain ⟨i, hi, hgi⟩ := h
      rcases List.mem_cons.mp hi with h1 | h1
      · subst h1
        rw [List.foldl_cons]
        apply aget_foldl_adel_preserve
        rw [← hgi]
        exact aget_adel_self _ _
      · exact ih _ ⟨i, h1, hgi⟩

theorem aget_foldl_adel_of_not {α : Type} (g : String → String)
    (R : List String) (s : List (String × α)) (k : String)
    (h : ∀ i ∈ R, g i ≠ k) :
    aget (R.foldl (fun s2 i => adel s2 (g i)) s) k = aget s k := by
  induction R generalizing s with
  | nil => rfl
  | cons i0 rest ih =>
      rw [List.foldl_cons, ih _ (fun i hi => h i (List.mem_cons_of_mem i0 hi))]
      exact aget_adel_ne _ _ _ (fun he => h i0 (List.mem_cons_self i0 rest) he.symm)

theorem deletedKey_inj (c p i j : String)
    (h : deletedKey c p i = deletedKey c p j) : i = j := by
  have hd := congrArg String.data h
  rw [deletedKey, deletedKey] at hd
  simp only [String.data_append] at hd
  have h1 := (List.append_inj' hd rfl).1
  have h2 := List.append_cancel_left h1
  exact congrArg String.mk h2

theorem sremMany_nil (sets : List (String × List String)) (k : String)
    (h : aget sets k ≠ some []) : sremMany sets k [] = sets := by
  cases hk : aget sets k with
  | none => unfold sremMany; simp [hk]
  | some mem =>
      unfold sremMany
      simp only [hk]
      have hmem : mem ≠ [] := fun he => h (he ▸ hk)
      have hf : mem.filter (fun m => decide (m ∉ ([] : List String))) = mem := by
        apply List.filter_eq_self.mpr
        intro x _
        simp
      rw [hf, if_neg hmem]
      exact aset_aget_self _ _ _ hk

theorem purgeScopeStep_eq (c p mf : String) (n : Nat) (db : RedisDB)
    (ids : List String) (tsOf : String → Int) (rOf : String → Record)
    (before : Option Int)
    (hseg : keySegments (deletedSetKey c p) = [c, p, "deleted"])
    (hnsE : aget db.sets (deletedSetKey c p) ≠ some [])
    (H : ∀ i ∈ ids, aget db.strings (deletedKey c p i) = some (rOf i) ∧
      rget (rOf i) "id" = some (.str i) ∧
      rget (rOf i) mf = some (.num (tsOf i))) :
    purgeScopeStep before mf (n, db) (deletedSetKey c p, ids) =
      (n + (ids.filter (fun i => removePred before (tsOf i))).length,
       { db with
         strings := (ids.filter (fun i => removePred before (tsOf i))).foldl
           (fun s i => adel s (deletedKey c p i)) db.strings,
         sets := sremMany db.sets (deletedSetKey c p)
           (ids.filter (fun i => removePred before (tsOf i))) }) := by
  have h1 : ∀ l : List String,
      (∀ i ∈ l, aget db.strings (deletedKey c p i) = some (rOf i)) →
      ((l.map (fun i => deletedKey c p i)).map
        (fun k => aget db.strings k)).filterMap id = l.map rOf := by
    intro l hl
    induction l with
    | nil => rfl
    | cons i t ih =>
        have hh := hl i (List.mem_cons_self i t)
        simp only [List.map_cons, List.filterMap_cons, hh, id]
        rw [ih (fun j hj => hl j (List.mem_cons_of_mem i hj))]
  have h3 : ∀ l : List String,
      (∀ i ∈ l, rget (rOf i) "id" = some (.str i)) →
      (l.map rOf).map (fun d => JVal.fmt ((rget d "id").getD JVal.null)) =
        l := by
    intro l hl
    induction l with
    | nil => rfl
    | cons i t ih =>
        have hh := hl i (List.mem_cons_self i t)
        simp only [List.map_cons]
        rw [hh]
        rw [show ((some (JVal.str i)).getD JVal.null).fmt = i from rfl]
        rw [ih (fun j hj => hl j (List.mem_cons_of_mem i hj))]
  unfold purgeScopeStep
  simp only []
  by_cases hids : ids = []
  · subst hids
    rw [if_pos rfl]
    simp [sremMany_nil _ _ hnsE]
  · rw [if_neg hids]
    simp only [hseg]
    cases before with
    | none =>
        have hRids : ids.filter (fun i => removePred none (tsOf i)) = ids := by
          simp [removePred]
        simp only []
        rw [h1 ids (fun i hi => (H i hi).1),
          h3 ids (fun i hi => (H i hi).2.1), hRids]
        rw [if_neg hids]
    | some b =>
        have h2 : ∀ l : List String,
            (∀ i ∈ l, rget (rOf i) mf = some (.num (tsOf i))) →
            (l.map rOf).filter (fun d => jvalLtInt (rget d mf) b) =
              (l.filter (fun i => decide (tsOf i < b))).map rOf := by
          intro l hl
          induction l with
          | nil => rfl
          | cons i t ih =>
              have hh := hl i (List.mem_cons_self i t)
              rw [List.map_cons, List.filter_cons, List.filter_cons, hh]
              have hih := ih (fun j hj => hl j (List.mem_cons_of_mem i hj))
              by_cases hc : decide (tsOf i < b) = true
              · rw [show jvalLtInt (some (JVal.num (tsOf i))) b =
                  decide (tsOf i < b) from rfl]
                rw [hc, if_pos rfl, if_pos rfl, List.map_cons, hih]
              · rw [show jvalLtInt (some (JVal.num (tsOf i))) b =
                  decide (tsOf i < b) from rfl]
                rw [Bool.eq_false_iff.mpr hc]
                rw [if_neg (by simp), if_neg (by simp), hih]
        have hRsame : (fun i => removePred (some b) (tsOf i)) =
            (fun i => decide (tsOf i < b)) := rfl
        simp only []
        rw [h1 ids (fun i hi => (H i hi).1),
          h2 ids (fun i hi => (H i hi).2.2), hRsame]
        rw [h3 _ (fun i hi => (H i (List.mem_of_mem_filter hi)).2.1)]
        by_cases hR : ids.filter (fun i => decide (tsOf i < b)) = []
        · rw [if_pos hR, hR, sremMany_nil _ _ hnsE]
          simp
        · rw [if_neg hR]

theorem aget_mem_keys {α : Type} (l : List (String × α)) (k : String) (v : α)
    (h : aget l k = some v) : k ∈ l.map Prod.fst := by
  have := mem_of_aget l k v h
  exact List.mem_map.mpr ⟨(k, v), this, rfl⟩

/-- C4: for a scope with plain segment names in a well-formed store,
purge_deleted removes exactly the tombstones of that scope whose timestamp is
strictly below the bound (all of them when no bound is given): their
tombstone keys are deleted, the surviving tombstones and every other key are
untouched, the removed ids leave the tombstone-id set (the key itself
disappearing when the set empties), and the returned count is the number of
tombstones removed. -/
theorem storage_purge_deleted_exact :
    ∀ (c p mf : String) (db : RedisDB) (ids : List String)
      (tsOf : String → Int) (rOf : String → Record) (before : Option Int),
      plainSeg c = true → plainSeg p = true →
      (db.sets.map Prod.fst).Nodup →
      deletedSetKey c p ∉ db.strings.map Prod.fst →
      deletedSetKey c p ∉ db.ints.map Prod.fst →
      aget db.sets (deletedSetKey c p) = some ids →
      ids ≠ [] →
      (∀ i ∈ ids, aget db.strings (deletedKey c p i) = some (rOf i) ∧
        rget (rOf i) "id" = some (.str i) ∧
        rget (rOf i) mf = some (.num (tsOf i))) →
      ((storage_purge_deleted (some c) p before mf db).1 =
        (ids.filter (fun i => removePred before (tsOf i))).length) ∧
      (∀ i ∈ ids, removePred before (tsOf i) = true →
        aget (storage_purge_deleted (some c) p before mf db).2.strings
          (deletedKey c p i) = none) ∧
      (∀ i ∈ ids, removePred before (tsOf i) = false →
        aget (storage_purge_deleted (some c) p before mf db).2.strings
          (deletedKey c p i) = some (rOf i)) ∧
      (aget (storage_purge_deleted (some c) p before mf db).2.sets
          (deletedSetKey c p) =
        (if ids.filter (fun i => !(removePred before (tsOf i))) = [] then none
         else some (ids.filter (fun i => !(removePred before (tsOf i)))))) ∧
      (∀ k, (∀ i ∈ ids, k ≠ deletedKey c p i) →
        aget (storage_purge_deleted (some c) p before mf db).2.strings k =
          aget db.strings k) ∧
      (∀ k, k ≠ deletedSetKey c p →
        aget (storage_purge_deleted (some c) p before mf db).2.sets k =
          aget db.sets k) ∧
      (storage_purge_deleted (some c) p before mf db).2.ints = db.ints := by
  intro c p mf db ids tsOf rOf before hc hp hnd hstrK hintK hset hids H
  have hseg := keySegments_deletedSetKey c p hc hp
  have hmatched :
      (allKeys db).filter (fun k => globMatchS (deletedSetKey c p) k) =
        [deletedSetKey c p] := by
    rw [List.filter_congr
      (fun k _ => globMatchS_plain _ k (deletedSetKey_plain c p hc hp))]
    unfold allKeys
    rw [List.filter_append, List.filter_append]
    rw [filter_keyEq_nil _ _ hstrK, filter_keyEq_nil _ _ hintK,
      filter_keyEq_single _ _ hnd (aget_mem_keys _ _ _ hset)]
    simp
  have hrun : storage_purge_deleted (some c) p before mf db =
      purgeScopeStep before mf (0, db) (deletedSetKey c p, ids) := by
    unfold storage_purge_deleted
    simp only [Option.getD_some]
    rw [hmatched]
    rw [show [deletedSetKey c p].filter
        (fun k => (keySegments k).length == 3) = [deletedSetKey c p] from by
      simp [hseg]]
    simp [smembers, hset]
  have hnsE : aget db.sets (deletedSetKey c p) ≠ some [] := by
    rw [hset]
    simp [hids]
  have hstep := purgeScopeStep_eq c p mf 0 db ids tsOf rOf before hseg hnsE H
  rw [hrun, hstep]
  have hsub : ∀ i, i ∈ ids.filter (fun j => removePred before (tsOf j)) →
      i ∈ ids := fun i hi => List.mem_of_mem_filter hi
  refine ⟨by simp, ?_, ?_, ?_, ?_, ?_, rfl⟩
  · intro i hi hpred
    apply aget_foldl_adel_of_mem
    exact ⟨i, List.mem_filter.mpr ⟨hi, hpred⟩, rfl⟩
  · intro i hi hpred
    rw [aget_foldl_adel_of_not]
    · exact (H i hi).1
    · intro j hj he
      have hj2 := List.mem_filter.mp hj
      have : j = i := deletedKey_inj c p j i he
      subst this
      rw [hpred] at hj2
      cases hj2.2
  · have hflt : ids.filter
        (fun m => decide (m ∉ ids.filter (fun j => removePred before (tsOf j)))) =
        ids.filter (fun i => !(removePred before (tsOf i))) := by
      apply List.filter_congr
      intro i hi
      by_cases hpred : removePred before (tsOf i) = true
      · simp [List.mem_filter, hi, hpred]
      · have hpf : removePred before (tsOf i) = false :=
          Bool.eq_false_iff.mpr hpred
        simp [List.mem_filter, hpf]
    unfold sremMany
    simp only [hset]
    rw [hflt]
    by_cases hk : ids.filter (fun i => !(removePred before (tsOf i))) = []
    · rw [if_pos hk, hk]
      simp [aget_adel_self]
    · rw [if_neg hk, if_neg hk]
      exact aget_aset_self _ _ _
  · intro k hk
    apply aget_foldl_adel_of_not
    intro i hi he
    exact hk i (hsub i hi) he.symm
  · intro k hk
    unfold sremMany
    simp only [hset]
    split
    · exact aget_adel_ne _ _ _ hk
    · exact aget_aset_ne _ _ _ _ hk

theorem storage_purge_deleted_exact_witness :
    ((storage_purge_deleted (some "record") "b1" (some 150) "last_modified"
      dbPurgeW).1 = 1) ∧
    (aget (storage_purge_deleted (some "record") "b1" (some 150)
      "last_modified" dbPurgeW).2.strings (deletedKey "record" "b1" "t1") =
      none) ∧
    (aget (storage_purge_deleted (some "record") "b1" (some 150)
      "last_modified" dbPurgeW).2.strings (deletedKey "record" "b1" "t2") =
      some [("id", JVal.str "t2"), ("last_modified", JVal.num 200)]) ∧
    (aget (storage_purge_deleted (some "record") "b1" (some 150)
      "last_modified" dbPurgeW).2.sets (deletedSetKey "record" "b1") =
      some ["t2"]) := by
  have h := storage_purge_deleted_exact "record" "b1" "last_modified"
    dbPurgeW ["t1", "t2"] (fun i => if i = "t1" then 100 else 200)
    (fun i => if i = "t1" then
      [("id", JVal.str "t1"), ("last_modified", JVal.num 100)]
      else [("id", JVal.str "t2"), ("last_modified", JVal.num 200)])
    (some 150) (by decide) (by decide) (by decide) (by decide) (by decide)
    (by decide) (by decide) (by decide)
  refine ⟨h.1.trans (by decide), ?_, ?_, ?_⟩
  · exact h.2.1 "t1" (by decide) (by decide)
  · exact (h.2.2.1 "t2" (by decide) (by decide)).trans (by decide)
  · exact h.2.2.2.1.trans (by decide)

/-!  Lemmas for get_accessible_objects (C6).  -/

theorem aget_append {α : Type} (l1 l2 : List (String × α)) (k : String) :
    aget (l1 ++ l2) k =
      match aget l1 k with
      | some v => some v
      | none => aget l2 k := by
  induction l1 with
  | nil => simp [aget]
  | cons e t ih =>
      obtain ⟨k1, w⟩ := e
      by_cases h : k1 = k <;> simp [aget, h, ih]

theorem gaoAddPerm_self (acc : List (String × List String))
    (oid perm : String) :
    perm ∈ (aget (gaoAddPerm acc oid perm) oid).getD [] := by
  unfold gaoAddPerm
  cases h : aget acc oid with
  | none =>
      simp only []
      rw [aget_append]
      simp [h, aget]
  | some perms =>
      simp only []
      by_cases hp : perm ∈ perms
      · simp [hp, h]
      · rw [if_neg hp, aget_aset_self]
        simp

theorem gaoAddPerm_mono (acc : List (String × List String))
    (oid2 perm2 obj perm : String)
    (h : perm ∈ (aget acc obj).getD []) :
    perm ∈ (aget (gaoAddPerm acc oid2 perm2) obj).getD [] := by
  unfold gaoAddPerm
  by_cases heq : obj = oid2
  · subst heq
    cases h2 : aget acc obj with
    | none => simp [h2] at h
    | some perms =>
        rw [h2] at h
        simp only [Option.getD_some] at h
        simp only []
        by_cases hp : perm2 ∈ perms
        · simp [hp, h2, h]
        · rw [if_neg hp, aget_aset_self]
          simp only [Option.getD_some]
          exact List.mem_append.mpr (Or.inl h)
  · cases h2 : aget acc oid2 with
    | none =>
        simp only []
        rw [aget_append]
        cases h3 : aget acc obj with
        | none => simp [h3] at h
        | some perms =>
            rw [h3] at h
            simp only [Option.getD_some] at h
            simp [h3, h]
    | some perms =>
        simp only []
        by_cases hp : perm2 ∈ perms
        · simp [hp, h]
        · rw [if_neg hp, aget_aset_ne _ _ _ _ heq]
          exact h

theorem gaoAddPerm_none (acc : List (String × List String))
    (oid2 perm2 obj : String) (hne : obj ≠ oid2)
    (h : aget acc obj = none) :
    aget (gaoAddPerm acc oid2 perm2) obj = none := by
  unfold gaoAddPerm
  cases h2 : aget acc oid2 with
  | none =>
      simp only []
      rw [aget_append]
      simp [h, aget, hne.symm]
  | some perms =>
      simp only []
      by_cases hp : perm2 ∈ perms
      · simp [hp, h]
      · rw [if_neg hp, aget_aset_ne _ _ _ _ hne]
        exact h

theorem gaoStep_mono (db : RedisDB) (principals : List String)
    (acc : List (String × List String)) (k obj perm : String)
    (h : perm ∈ (aget acc obj).getD []) :
    perm ∈ (aget (gaoStep db principals acc k) obj).getD [] := by
  unfold gaoStep
  simp only []
  by_cases hint : (smembers db.sets k).any (fun a => a ∈ principals) = true
  · rw [if_pos hint]
    cases hp : splitColon2 k with
    | none => exact h
    | some parts => exact gaoAddPerm_mono _ _ _ _ _ h
  · rw [if_neg hint]
    exact h

theorem gaoStep_none (db : RedisDB) (principals : List String)
    (acc : List (String × List String)) (k obj : String)
    (h : aget acc obj = none)
    (hnc : (smembers db.sets k).any (fun a => a ∈ principals) = true →
      ∀ x2 perm2, splitColon2 k ≠ some (x2, obj, perm2)) :
    aget (gaoStep db principals acc k) obj = none := by
  unfold gaoStep
  simp only []
  by_cases hint : (smembers db.sets k).any (fun a => a ∈ principals) = true
  · rw [if_pos hint]
    cases hp : splitColon2 k with
    | none => exact h
    | some parts =>
        show aget (gaoAddPerm acc parts.2.1 parts.2.2) obj = none
        apply gaoAddPerm_none _ _ _ _ _ h
        intro heq
        exact hnc hint parts.1 parts.2.2 (by rw [hp, heq])
  · rw [if_neg hint]
    exact h

theorem gaoStep_adds (db : RedisDB) (principals : List String)
    (acc : List (String × List String)) (k obj perm x : String)
    (hint : (smembers db.sets k).any (fun a => a ∈ principals) = true)
    (hp : splitColon2 k = some (x, obj, perm)) :
    perm ∈ (aget (gaoStep db principals acc k) obj).getD [] := by
  unfold gaoStep
  simp only []
  rw [if_pos hint, hp]
  exact gaoAddPerm_self _ _ _

theorem gaoFold_mono (db : RedisDB) (principals : List String)
    (ks : List String) (acc : List (String × List String))
    (obj perm : String) (h : perm ∈ (aget acc obj).getD []) :
    perm ∈ (aget (ks.foldl (gaoStep db principals) acc) obj).getD [] := by
  induction ks generalizing acc with
  | nil => exact h
  | cons k rest ih => exact ih _ (gaoStep_mono _ _ _ _ _ _ h)

theorem gaoFold_none (db : RedisDB) (principals : List String)
    (ks : List String) (acc : List (String × List String)) (obj : String)
    (h : aget acc obj = none)
    (hnc : ∀ k ∈ ks,
      (smembers db.sets k).any (fun a => a ∈ principals) = true →
      ∀ x2 perm2, splitColon2 k ≠ some (x2, obj, perm2)) :
    aget (ks.foldl (gaoStep db principals) acc) obj = none := by
  induction ks generalizing acc with
  | nil => exact h
  | cons k rest ih =>
      exact ih _ (gaoStep_none _ _ _ _ _ h (hnc k (by simp)))
        (fun k2 hk2 => hnc k2 (by simp [hk2]))

theorem gaoFold_adds (db : RedisDB) (principals : List String)
    (ks : List String) (acc : List (String × List String))
    (K obj perm x : String) (hK : K ∈ ks)
    (hint : (smembers db.sets K).any (fun a => a ∈ principals) = true)
    (hp : splitColon2 K = some (x, obj, perm)) :
    perm ∈ (aget (ks.foldl (gaoStep db principals) acc) obj).getD [] := by
  induction ks generalizing acc with
  | nil => simp at hK
  | cons k rest ih =>
      rcases List.mem_cons.mp hK with h1 | h1
      · subst h1
        rw [List.foldl_cons]
        exact gaoFold_mono _ _ _ _ _ _ (gaoStep_adds _ _ _ _ _ _ _ hint hp)
      · exact ih _ h1

theorem gaoPat_mono (db : RedisDB) (principals : List String)
    (rxs : List String) (wc : Bool) (acc : List (String × List String))
    (pat obj perm : String) (h : perm ∈ (aget acc obj).getD []) :
    perm ∈ (aget (gaoPat db principals rxs wc acc pat) obj).getD [] := by
  unfold gaoPat
  exact gaoFold_mono _ _ _ _ _ _ h

theorem gaoPats_mono (db : RedisDB) (principals : List String)
    (rxs : List String) (wc : Bool) (pats : List String)
    (acc : List (String × List String)) (obj perm : String)
    (h : perm ∈ (aget acc obj).getD []) :
    perm ∈ (aget (pats.foldl (gaoPat db principals rxs wc) acc) obj).getD [] := by
  induction pats generalizing acc with
  | nil => exact h
  | cons pat rest ih => exact ih _ (gaoPat_mono _ _ _ _ _ _ _ _ h)

theorem gaoPat_adds_true (db : RedisDB) (principals : List String)
    (rxs : List String) (acc : List (String × List String))
    (pat K obj perm x : String) (hKmem : K ∈ allKeys db)
    (hglob : globMatchS pat K = true)
    (hint : (smembers db.sets K).any (fun a => a ∈ principals) = true)
    (hp : splitColon2 K = some (x, obj, perm)) :
    perm ∈ (aget (gaoPat db principals rxs true acc pat) obj).getD [] := by
  unfold gaoPat
  simp only [if_pos rfl]
  exact gaoFold_adds db principals _ acc K obj perm x
    (List.mem_filter.mpr ⟨hKmem, hglob⟩) hint hp

theorem gaoPats_adds_true (db : RedisDB) (principals : List String)
    (rxs : List String) (pats : List String)
    (acc : List (String × List String)) (K obj perm x : String)
    (hKmem : K ∈ allKeys db)
    (hglob : pats.any (fun pat => globMatchS pat K) = true)
    (hint : (smembers db.sets K).any (fun a => a ∈ principals) = true)
    (hp : splitColon2 K = some (x, obj, perm)) :
    perm ∈ (aget (pats.foldl (gaoPat db principals rxs true) acc) obj).getD [] := by
  induction pats generalizing acc with
  | nil => simp at hglob
  | cons pat rest ih =>
      by_cases hg : globMatchS pat K = true
      · rw [List.foldl_cons]
        exact gaoPats_mono _ _ _ _ _ _ _ _
          (gaoPat_adds_true _ _ _ _ _ _ _ _ _ hKmem hg hint hp)
      · rw [List.any_cons] at hglob
        have hg2 : globMatchS pat K = false := Bool.eq_false_iff.mpr hg
        simp only [hg2, Bool.false_or] at hglob
        exact ih _ hglob

theorem gaoPat_none_false (db : RedisDB) (principals : List String)
    (rxs : List String) (acc : List (String × List String))
    (pat obj : String) (h : aget acc obj = none)
    (hnc : ∀ k, k ∈ allKeys db →
      (decide (rxs = []) || rxs.any (fun r => rxMatchS r k)) = true →
      (smembers db.sets k).any (fun a => a ∈ principals) = true →
      ∀ x2 perm2, splitColon2 k ≠ some (x2, obj, perm2)) :
    aget (gaoPat db principals rxs false acc pat) obj = none := by
  unfold gaoPat
  simp only []
  split
  · next hft => exact (Bool.false_ne_true hft).elim
  apply gaoFold_none db principals _ acc obj h
  intro k hk
  unfold filter_by_regexp at hk
  rw [List.mem_dedup, List.mem_filter] at hk
  obtain ⟨hk1, hk2⟩ := hk
  rw [List.mem_filter] at hk1
  exact hnc k hk1.1 hk2

theorem gaoPats_none_false (db : RedisDB) (principals : List String)
    (rxs : List String) (pats : List String)
    (acc : List (String × List String)) (obj : String)
    (h : aget acc obj = none)
    (hnc : ∀ k, k ∈ allKeys db →
      (decide (rxs = []) || rxs.any (fun r => rxMatchS r k)) = true →
      (smembers db.sets k).any (fun a => a ∈ principals) = true →
      ∀ x2 perm2, splitColon2 k ≠ some (x2, obj, perm2)) :
    aget (pats.foldl (gaoPat db principals rxs false) acc) obj = none := by
  induction pats generalizing acc with
  | nil => exact h
  | cons pat rest ih =>
      exact ih _ (gaoPat_none_false _ _ _ _ _ _ h hnc)

/-- C6: with bound permissions given, a permission key whose principal set
intersects the query principals, which is reached by the glob scan of some
bound pattern but matched by none of the derived regexps (that is, the glob
match needs a wildcard segment to extend across a slash), contributes its
object id to the result only when with_children holds: the call with
with_children true includes the descendant object id, the call with
with_children false returns no entry for it (no other key of the store
parses to the same object id). -/
theorem get_accessible_objects_children_filter :
    ∀ (db : RedisDB) (principals : List String)
      (bounds : List (String × String)) (K x obj perm : String)
      (M : List String),
      bounds ≠ [] →
      aget db.sets K = some M →
      M.any (fun a => a ∈ principals) = true →
      splitColon2 K = some (x, obj, perm) →
      (bounds.map (fun op => permKey op.1 op.2)).any
        (fun pat => globMatchS pat K) = true →
      (∀ pat ∈ bounds.map (fun op => permKey op.1 op.2),
        rxMatchS pat K = false) →
      (∀ e ∈ db.sets, e.1 ≠ K →
        (splitColon2 e.1).map (fun t => t.2.1) ≠ some obj) →
      (perm ∈
        (aget (get_accessible_objects db principals bounds true) obj).getD []) ∧
      aget (get_accessible_objects db principals bounds false) obj = none := by
  intro db principals bounds K x obj perm M hb hK hM hp hglob hrx honly
  have hint : (smembers db.sets K).any (fun a => a ∈ principals) = true := by
    rw [smembers, hK]
    exact hM
  have hKmem : K ∈ allKeys db := by
    unfold allKeys
    have := aget_mem_keys _ _ _ hK
    simp [this]
  constructor
  · unfold get_accessible_objects
    simp only []
    rw [if_neg hb, if_neg hb]
    exact gaoPats_adds_true db principals _ _ [] K obj perm x hKmem hglob
      hint hp
  · unfold get_accessible_objects
    simp only []
    rw [if_neg hb, if_neg hb]
    apply gaoPats_none_false db principals _ _ [] obj (by simp [aget])
    intro k hkAll hkrx hkint x2 perm2 hkparse
    have hkeyPats : bounds.map (fun op => permKey op.1 op.2) ≠ [] := by
      simpa using hb
    cases hset : aget db.sets k with
    | none =>
        rw [smembers, hset] at hkint
        simp at hkint
    | some mem =>
        by_cases hkK : k = K
        · subst hkK
          rw [decide_eq_false hkeyPats, Bool.false_or,
            List.any_eq_true] at hkrx
          obtain ⟨r, hr, hrm⟩ := hkrx
          rw [hrx r hr] at hrm
          cases hrm
        · exact honly (k, mem) (mem_of_aget _ _ _ hset) hkK
            (by rw [hkparse]; rfl)

theorem get_accessible_objects_children_filter_witness :
    ("write" ∈
      (aget (get_accessible_objects dbChildW ["alice"]
        [("bucket1/*", "write")] true) "bucket1/colA/rec1").getD []) ∧
    aget (get_accessible_objects dbChildW ["alice"]
      [("bucket1/*", "write")] false) "bucket1/colA/rec1" = none :=
  get_accessible_objects_children_filter dbChildW ["alice"]
    [("bucket1/*", "write")] (permKey "bucket1/colA/rec1" "write")
    "permission" "bucket1/colA/rec1" "write" ["alice"] (by decide)
    (by decide) (by decide) (by decide) (by decide) (by decide) (by decide)

/-!  C8: escape of store errors at the operation boundary.  -/

theorem wrap_no_redisError {α : Type} (r : Except PyErr α) :
    isRedisError (wrap_redis_error r) = false := by
  cases r with
  | ok a => rfl
  | error e => cases e <;> rfl

/-- C8 counterexample: Permission.remove_principal carries no
wrap_redis_error decorator, so when the underlying client fails, the
store-specific redis error escapes the permission-engine boundary instead of
being re-raised as a backend error. -/
theorem remove_principal_leaks_redis_error :
    isRedisError (remove_principalOp Client.failing "alice") = true := rfl

/-- C8 (amended): every public operation decorated with wrap_redis_error —
in storage.py all public methods, in permission.py all public methods except
remove_principal — re-raises any underlying store error as a backend error:
no redis error ever escapes their boundary, for any client state and any
arguments. -/
theorem wrapped_operations_never_leak_redis_error :
    ∀ (cl : Client) (c p oid u perm principal gen idf mf : String)
      (record : Record) (now : Nat) (lm : Option Nat) (wd : Bool)
      (cid : Option String) (before : Option Int)
      (principals oids : List String) (bounds : List (String × String))
      (wc : Bool) (perms : List (String × List String))
      (permsOpt : Option (List String)),
      isRedisError (storage_flushOp cl) = false ∧
      isRedisError (bump_and_store_timestampOp cl c p now lm) = false ∧
      isRedisError (storage_createOp cl c p record idf mf gen now) = false ∧
      isRedisError (storage_getOp cl c p oid) = false ∧
      isRedisError (storage_updateOp cl c p oid record idf mf now) = false ∧
      isRedisError (storage_deleteOp cl c p oid wd idf mf lm now) = false ∧
      isRedisError (storage_purge_deletedOp cl cid p before mf) = false ∧
      isRedisError (permission_flushOp cl) = false ∧
      isRedisError (add_user_principalOp cl u principal) = false ∧
      isRedisError (remove_user_principalOp cl u principal) = false ∧
      isRedisError (get_user_principalsOp cl u) = false ∧
      isRedisError (add_principal_to_aceOp cl oid perm principal) = false ∧
      isRedisError (remove_principal_from_aceOp cl oid perm principal) = false ∧
      isRedisError (get_object_permission_principalsOp cl oid perm) = false ∧
      isRedisError (get_accessible_objectsOp cl principals bounds wc) = false ∧
      isRedisError (get_authorized_principalsOp cl bounds) = false ∧
      isRedisError (get_objects_permissionsOp cl oids permsOpt) = false ∧
      isRedisError (replace_object_permissionsOp cl oid perms) = false ∧
      isRedisError (delete_object_permissionsOp cl oids) = false := by
  intro cl c p oid u perm principal gen idf mf record now lm wd cid before
    principals oids bounds wc perms permsOpt
  exact ⟨wrap_no_redisError _, wrap_no_redisError _, wrap_no_redisError _,
    wrap_no_redisError _, wrap_no_redisError _, wrap_no_redisError _,
    wrap_no_redisError _, wrap_no_redisError _, wrap_no_redisError _,
    wrap_no_redisError _, wrap_no_redisError _, wrap_no_redisError _,
    wrap_no_redisError _, wrap_no_redisError _, wrap_no_redisError _,
    wrap_no_redisError _, wrap_no_redisError _, wrap_no_redisError _,
    wrap_no_redisError _⟩

end KintoRedis
